import Mathlib

/-!
Verification of the labchain repository: a shallow embedding of
`src/block.py` and `src/protocol.py` in Lean 4, with theorems settling the
frozen claims about block validation, header hashing and encoding, the
JSON round trip, the framing protocol, and the peer table.

Bytes are modelled as `Nat` (each byte below 256 where it matters),
byte strings as `List Nat`, Python ints as `Int`, and collaborator
modules that are not part of the two source files (the hash primitive,
the merkle-root provider, the proof-of-work verifier, the ledger view)
as explicit parameters, following the collaborator interfaces of the
specification.
-/

/-! ### Python `datetime` values

`datetime.datetime` is modelled by its components.  Comparison and
`timedelta` arithmetic on `datetime` coincide with arithmetic on the
total number of microseconds since 0001-01-01 (proleptic Gregorian
calendar, which is what CPython's `date.toordinal` implements), so the
embedding exposes `DateTime.toMicros` and performs all comparisons
through it. -/

structure DateTime where
  year : Nat
  month : Nat
  day : Nat
  hour : Nat
  minute : Nat
  second : Nat
  usec : Nat
deriving DecidableEq, Repr

/-- Leap-year test of the proleptic Gregorian calendar. -/
def DateTime.isLeap (y : Nat) : Bool :=
  y % 4 = 0 && (y % 100 != 0 || y % 400 = 0)

/-- Cumulative day counts before each month in a non-leap year
(index 1 to 12; index 0 unused). -/
def DateTime.daysBeforeMonth (m : Nat) : Nat :=
  [0, 0, 31, 59, 90, 120, 151, 181, 212, 243, 273, 304, 334].getD m 0

/-- `date.toordinal`: day number of `(y, m, d)` with 0001-01-01 = day 1. -/
def DateTime.toOrdinal (t : DateTime) : Nat :=
  365 * (t.year - 1) + ((t.year - 1) / 4 + (t.year - 1) / 400 - (t.year - 1) / 100)
    + DateTime.daysBeforeMonth t.month
    + (if DateTime.isLeap t.year && decide (2 < t.month) then 1 else 0)
    + t.day

/-- Total microseconds represented by a `datetime`; `datetime` comparison
and `timedelta` arithmetic agree with `Nat` arithmetic on this value. -/
def DateTime.toMicros (t : DateTime) : Nat :=
  ((((t.toOrdinal * 24 + t.hour) * 60 + t.minute) * 60 + t.second) * 1000000) + t.usec

/-- Component ranges accepted by the `datetime` constructor (year
restricted to four digits so that `strftime` `%Y` emits exactly four). -/
def DateTime.Valid (t : DateTime) : Prop :=
  1000 ≤ t.year ∧ t.year ≤ 9999 ∧ 1 ≤ t.month ∧ t.month ≤ 12 ∧
  1 ≤ t.day ∧ t.day ≤ 31 ∧ t.hour ≤ 23 ∧ t.minute ≤ 59 ∧ t.second ≤ 59 ∧
  t.usec ≤ 999999

instance (t : DateTime) : Decidable t.Valid := by
  unfold DateTime.Valid; infer_instance

/-! ### Decimal formatting and parsing (`strftime` / `strptime`) -/

/-- `w`-digit zero-padded decimal rendering of `n` as ASCII bytes. -/
def padDigits : Nat → Nat → List Nat
  | 0, _ => []
  | w + 1, n => padDigits w (n / 10) ++ [48 + n % 10]

/-- Value of an ASCII decimal digit. -/
def charDigit (c : Nat) : Option Nat :=
  if 48 ≤ c ∧ c ≤ 57 then some (c - 48) else none

/-- Consume exactly `w` ASCII digits from the stream, returning the
decimal value accumulated onto `acc` and the rest of the stream. -/
def parseDigits (acc : Nat) : Nat → List Nat → Option (Nat × List Nat)
  | 0, s => some (acc, s)
  | _ + 1, [] => none
  | w + 1, c :: s =>
    match charDigit c with
    | none => none
    | some d => parseDigits (acc * 10 + d) w s

/-- Consume an expected run of literal bytes. -/
def parseLits : List Nat → List Nat → Option (List Nat)
  | [], s => some s
  | _ :: _, [] => none
  | c :: cs, b :: s => if b = c then parseLits cs s else none

/-- Consume a sequence of fixed-width decimal fields, each followed by a
run of literal separator bytes; returns the field values (in order) and
the rest of the stream. -/
def parseFields : List (Nat × List Nat) → List Nat → Option (List Nat × List Nat)
  | [], s => some ([], s)
  | (w, sep) :: fs, s =>
    (parseDigits 0 w s).bind fun p =>
    (parseLits sep p.2).bind fun s2 =>
    (parseFields fs s2).bind fun q =>
    some (p.1 :: q.1, q.2)

/-- The field layout of `"%Y-%m-%dT%H:%M:%S.%f UTC"`: widths and the
separator bytes after each field (`-` 45, `T` 84, `:` 58, `.` 46,
`" UTC"` = 32 85 84 67). -/
def timeFields : List (Nat × List Nat) :=
  [(4, [45]), (2, [45]), (2, [84]), (2, [58]), (2, [58]), (2, [46]),
   (6, [32, 85, 84, 67])]

/-- `strftime("%Y-%m-%dT%H:%M:%S.%f UTC")`: the timestamp rendering used
both for hashing and for the JSON encoding (`-` 45, `T` 84, `:` 58,
`.` 46, space 32, `UTC` 85 84 67). -/
def timeFormat (t : DateTime) : List Nat :=
  padDigits 4 t.year ++ [45] ++ padDigits 2 t.month ++ [45] ++ padDigits 2 t.day
    ++ [84] ++ padDigits 2 t.hour ++ [58] ++ padDigits 2 t.minute ++ [58]
    ++ padDigits 2 t.second ++ [46] ++ padDigits 6 t.usec ++ [32, 85, 84, 67]

/-- `strptime(s, "%Y-%m-%dT%H:%M:%S.%f UTC")` on the fixed-width strings
produced by `timeFormat`, validating the component ranges the
`datetime` constructor enforces. -/
def timeParse (s0 : List Nat) : Option DateTime :=
  match parseFields timeFields s0 with
  | some ([y, mo, d, h, mi, sec, us], []) =>
    if 1 ≤ y ∧ 1 ≤ mo ∧ mo ≤ 12 ∧ 1 ≤ d ∧ d ≤ 31 ∧ h ≤ 23 ∧
        mi ≤ 59 ∧ sec ≤ 61 ∧ us ≤ 999999 then
      some ⟨y, mo, d, h, mi, sec, us⟩
    else none
  | _ => none

/-! ### `binascii.hexlify` / `binascii.unhexlify` -/

/-- Lower-case hex digit of a value below 16 (`0`-`9` then `a`-`f`). -/
def hexChar (n : Nat) : Nat := if n < 10 then 48 + n else 87 + n

/-- `binascii.hexlify`: two lower-case hex characters per byte. -/
def hexlify : List Nat → List Nat
  | [] => []
  | b :: r => hexChar (b / 16) :: hexChar (b % 16) :: hexlify r

/-- Value of one hex character (either case), as `unhexlify` accepts. -/
def hexVal (c : Nat) : Option Nat :=
  if 48 ≤ c ∧ c ≤ 57 then some (c - 48)
  else if 97 ≤ c ∧ c ≤ 102 then some (c - 87)
  else if 65 ≤ c ∧ c ≤ 70 then some (c - 55)
  else none

/-- `binascii.unhexlify`: inverse of `hexlify`; fails on odd length or a
non-hex character. -/
def unhexlify : List Nat → Option (List Nat)
  | [] => some []
  | [_] => none
  | c1 :: c2 :: r => do
    let d1 ← hexVal c1
    let d2 ← hexVal c2
    let rest ← unhexlify r
    pure ((16 * d1 + d2) :: rest)

/-! ### `Block._int_to_bytes`: the length-prefixed integer encoding -/

/-- Binary length of `m` (number of binary digits; 0 for 0), computed
with an explicit fuel so that it reduces in the kernel; `fuel ≥ m`
makes the fuel sufficient. -/
def natBitsAux : Nat → Nat → Nat
  | _, 0 => 0
  | 0, _ + 1 => 0
  | fuel + 1, m + 1 => natBitsAux fuel ((m + 1) / 2) + 1

/-- Python `int.bit_length()`: bit length of the absolute value. -/
def bitLength (v : Int) : Nat :=
  natBitsAux v.natAbs v.natAbs

/-- `n` bytes of `v` in little-endian order (the shared byte layout of
`struct.pack("<Q", v)` for `n = 8` and `int.to_bytes(n, 'little')`;
values are reduced modulo `2 ^ (8 * n)`, and `pack` additionally
requires `v < 2 ^ 64`, which the theorems carry as a hypothesis). -/
def leBytes : Nat → Nat → List Nat
  | 0, _ => []
  | n + 1, v => v % 256 :: leBytes n (v / 256)

/-- `Block._int_to_bytes`: `l = v.bit_length() + 1` as an 8-byte
little-endian length prefix, then the two's-complement value
(`v.to_bytes(l, 'little', signed=True)`, i.e. `v mod 2 ^ (8 l)`) in `l`
little-endian bytes. -/
def int_to_bytes (v : Int) : List Nat :=
  let l := bitLength v + 1
  leBytes 8 l ++ leBytes l (v.emod (2 ^ (8 * l))).toNat

/-- Concatenation of the encodings of a sequence of integers, as the
header fields are concatenated into the hasher. -/
def int_to_bytes_seq (vs : List Int) : List Nat :=
  (vs.map int_to_bytes).flatten

/-! ### Transactions and blocks

The `Transaction` class lives outside the two core source files.
Modelled from the spec: a transaction has `inputs` (references to prior
outputs; empty exactly for a coinbase transaction) and `targets`
(output amount/recipient pairs), with equality supporting set
membership. -/

structure Target where
  amount : Int
  recipient : List Nat
deriving DecidableEq, Repr

structure Tx where
  inputs : List Nat
  targets : List Target
deriving DecidableEq, Repr

/-- `Block`: all fields of the Python class, `hash` included (set by
`__init__` from `_get_hash`); `received_time` is `None` or a local
timestamp. -/
structure Block where
  prev_block_hash : List Nat
  merkle_root_hash : List Nat
  time : DateTime
  nonce : Int
  height : Int
  received_time : Option DateTime
  difficulty : Int
  transactions : List Tx
  hash : List Nat
deriving DecidableEq, Repr

/-- The collaborator modules referenced by `block.py` that are not part
of the core sources.  Modelled from the spec: `crypto.get_hasher` is an
incremental hasher with `update`/`digest` (the digest function `H` over
the absorbed byte string), `merkle.merkle_tree(txs).get_hash()` is the
merkle-root provider, `proof_of_work.verify_proof_of_work` is the
proof-of-work verifier, and `GENESIS_DIFFICULTY` together with the
`DIFFICULTY_*` constants fixes the hard-coded genesis header. -/
structure Env where
  H : List Nat → List Nat
  merkleRoot : List Tx → List Nat
  powVerify : Block → Bool
  genesisPrev : List Nat
  genesisDifficulty : Int

/-- `Block.get_partial_hash`: the hasher state after absorbing
`prev_block_hash`, `merkle_root_hash`, the formatted time string and
the encoded difficulty — everything except the nonce.  The hasher is
modelled by its absorbed byte string. -/
def Block.get_partial_hash (b : Block) : List Nat :=
  b.prev_block_hash ++ b.merkle_root_hash ++ timeFormat b.time
    ++ int_to_bytes b.difficulty

/-- `Block.finish_hash`: absorb the encoded nonce and produce the
digest. -/
def Block.finish_hash (env : Env) (b : Block) (hasher : List Nat) : List Nat :=
  env.H (hasher ++ int_to_bytes b.nonce)

/-- `Block._get_hash`: feed the partial hash into the finish step. -/
def Block.get_hash (env : Env) (b : Block) : List Nat :=
  b.finish_hash env b.get_partial_hash

/-- `Block.__init__`: store all fields and set `hash` from
`_get_hash`. -/
def Block.init (env : Env) (prev_block_hash : List Nat) (time : DateTime)
    (nonce height : Int) (received_time : Option DateTime) (difficulty : Int)
    (transactions : List Tx) (merkle_root_hash : List Nat) : Block :=
  let b : Block := ⟨prev_block_hash, merkle_root_hash, time, nonce, height,
    received_time, difficulty, transactions, []⟩
  { b with hash := b.get_hash env }

/-- The hard-coded genesis block: previous-hash sentinel string, fixed
timestamp `datetime(2017, 3, 3, 10, 35, 26, 922898)`, nonce 0, height
0, genesis difficulty, no transactions, merkle root of the empty
transaction list (`received_time` is `utcnow()` at module load, local
metadata only, taken here as `none`). -/
def GENESIS_BLOCK (env : Env) : Block :=
  Block.init env env.genesisPrev ⟨2017, 3, 3, 10, 35, 26, 922898⟩ 0 0 none
    env.genesisDifficulty [] (env.merkleRoot [])

/-- `GENESIS_BLOCK_HASH`. -/
def GENESIS_BLOCK_HASH (env : Env) : List Nat :=
  (GENESIS_BLOCK env).hash

/-! ### JSON-compatible encoding of blocks

Transactions are encoded by the external `Transaction` collaborator;
its `to_json_compatible` and `from_json_compatible` appear as the
parameters `txTo` and `txFrom` over an arbitrary representation type. -/

structure BlockJson (J : Type) where
  prev_block_hash : List Nat
  merkle_root_hash : List Nat
  time : List Nat
  nonce : Int
  height : Int
  difficulty : Int
  transactions : List J

/-- `Block.to_json_compatible`: hex-encoded hash fields, the formatted
time string, the integers verbatim, and the encoded transactions
(`received_time` is not written). -/
def Block.to_json_compatible (txTo : Tx → J) (b : Block) : BlockJson J :=
  ⟨hexlify b.prev_block_hash, hexlify b.merkle_root_hash,
    timeFormat b.time, b.nonce, b.height, b.difficulty,
    b.transactions.map txTo⟩

/-- The list comprehension `[Transaction.from_json_compatible(t) for t
in list(val['transactions'])]`: decode each transaction in order,
failing (raising, in Python) as soon as one does not decode. -/
def decodeAll (txFrom : J → Option Tx) : List J → Option (List Tx)
  | [] => some []
  | x :: xs =>
    (txFrom x).bind fun t =>
    (decodeAll txFrom xs).bind fun ts =>
    some (t :: ts)

/-- `Block.from_json_compatible`: decode every field and rebuild the
block through `__init__` (which recomputes `hash`); `received_time` is
set to the decoding time `now`.  Fails (raises, in Python) when a hex
field, the time string or a transaction does not parse. -/
def Block.from_json_compatible (env : Env) (txFrom : J → Option Tx)
    (now : DateTime) (v : BlockJson J) : Option Block :=
  (unhexlify v.prev_block_hash).bind fun prev =>
  (timeParse v.time).bind fun time =>
  (decodeAll txFrom v.transactions).bind fun txs =>
  (unhexlify v.merkle_root_hash).bind fun mroot =>
  some (Block.init env prev time v.nonce v.height (some now) v.difficulty
    txs mroot)

/-! ### Block verification against a chain view -/

/-- The `Blockchain` collaborator as `block.py` consumes it.  Modelled
from the spec: `head`, the next-block difficulty and block reward, the
set of known block hashes (`block_indices`), and the ledger view used
by `Transaction.verify` / `Transaction.get_transaction_fee` (the
transaction methods are external, so they appear as chain-view
functions of the transaction and, for `verify`, of the excluded
same-block transaction set). -/
structure Chain where
  head : Block
  nextDifficulty : Int
  nextReward : Int
  blockIndices : List (List Nat)
  txVerify : Tx → Finset Tx → Bool
  txFee : Tx → Int

/-- `Block.verify_merkle`: the recomputed merkle root must equal
`merkle_root_hash`. -/
def Block.verify_merkle (env : Env) (b : Block) : Bool :=
  env.merkleRoot b.transactions = b.merkle_root_hash

/-- `Block.verify_difficulty`: the genesis hash is always accepted;
otherwise the proof-of-work verifier must accept the block. -/
def Block.verify_difficulty (env : Env) (b : Block) : Bool :=
  if b.hash = GENESIS_BLOCK_HASH env then true
  else if ¬ env.powVerify b then false
  else true

/-- `Block.verify_prev_block`: `prev_block_hash` must be the hash of the
current chain head, `difficulty` the chain's next-block difficulty, and
`height` the head's height plus this block's difficulty. -/
def Block.verify_prev_block (chain : Chain) (b : Block) : Bool :=
  if chain.head.hash ≠ b.prev_block_hash then false
  else if b.difficulty ≠ chain.nextDifficulty then false
  else if chain.head.height + b.difficulty ≠ b.height then false
  else true

/-- The loop body of `Block.verify_transactions`: walk the transaction
list carrying the coinbase transaction seen so far (`mining_reward`);
reject a second coinbase, and reject any transaction that fails
`Transaction.verify` against the chain and the set of the other
transactions of the block; return the final `mining_reward`. -/
def txLoop (chain : Chain) (tset : Finset Tx) :
    List Tx → Option Tx → Option (Option Tx)
  | [], mr => some mr
  | t :: rest, mr =>
    match (if t.inputs = [] then
            (if mr.isSome then none else some (some t))
           else some mr : Option (Option Tx)) with
    | none => none
    | some mr' =>
      if chain.txVerify t (tset.erase t) then txLoop chain tset rest mr'
      else none

/-- `Block.verify_transactions`: run the loop over the block's
transactions; if a coinbase transaction was found, its total output
must not exceed the summed transaction fees plus the next-block
reward. -/
def Block.verify_transactions (chain : Chain) (b : Block) : Bool :=
  match txLoop chain b.transactions.toFinset b.transactions none with
  | none => false
  | some none => true
  | some (some mr) =>
    let fees := (b.transactions.map chain.txFee).sum
    let reward := chain.nextReward
    let used := (mr.targets.map Target.amount).sum
    if used > fees + reward then false else true

/-- `Block.verify_time` (at local time `now`): the block time may be at
most two hours ahead of `now` (`time - timedelta(hours=2) >
utcnow()` rejects) and must be strictly greater than the head's
time. -/
def Block.verify_time (chain : Chain) (now : DateTime) (b : Block) : Bool :=
  if b.time.toMicros > now.toMicros + 7200000000 then false
  else if b.time.toMicros ≤ chain.head.time.toMicros then false
  else true

/-- `Block.verify`: the asserted precondition (`hash` not already known
to the chain) is modelled as `none`; otherwise height 0 is always
rejected, and a non-zero-height block must pass the five checks in
order. -/
def Block.verify (env : Env) (chain : Chain) (now : DateTime) (b : Block) :
    Option Bool :=
  if b.hash ∈ chain.blockIndices then none
  else if b.height = 0 then some false
  else some (b.verify_difficulty env && b.verify_merkle env &&
    b.verify_prev_block chain && b.verify_transactions chain &&
    b.verify_time chain now)

/-! ### The peer protocol (`protocol.py`)

Python values that appear in addresses are modelled by `PyVal`: an
atom (string or int) or a tuple of atoms — one nesting level, which is
what socket addresses (flat tuples of host strings and port ints) and
the value the `myport` handler builds from them need.  A Python tuple
of such values is a `List PyVal`. -/

inductive PyAtom where
  | str : List Nat → PyAtom
  | int : Int → PyAtom
deriving DecidableEq, Repr

inductive PyVal where
  | atom : PyAtom → PyVal
  | tuple : List PyAtom → PyVal
deriving DecidableEq, Repr

/-- A message as built by `send_msg`: the dict with keys `msg_type` and
`msg_param`. -/
structure Msg where
  msg_type : List Nat
  msg_param : PyVal
deriving DecidableEq, Repr

/-- The mutable state of a `PeerConnection` that the claims concern:
the self-reported address, the connection flag, and the outbound
queue. -/
structure PeerConnection where
  peer_addr : Option (List PyVal)
  is_connected : Bool
  outgoing_msgs : List Msg
deriving DecidableEq, Repr

/-- `MAX_PEERS`. -/
def MAX_PEERS : Nat := 10

/-- `PeerConnection.send_msg`: when the connection flag is down the
call returns at once; otherwise the message dict is put on the
outbound queue. -/
def PeerConnection.send_msg (c : PeerConnection) (t : List Nat) (p : PyVal) :
    PeerConnection :=
  if ¬ c.is_connected then c
  else { c with outgoing_msgs := c.outgoing_msgs ++ [⟨t, p⟩] }

/-- The ASCII bytes of `"myport"`. -/
def myportType : List Nat := [109, 121, 112, 111, 114, 116]

/-- The address the reader thread stores on a `myport` message:
`(self._sock_addr,) + (int(msg_param),) + self._sock_addr[2:]` — note
that the first component is the whole socket-address tuple. -/
def myportUpdate (sock_addr : List PyAtom) (port : Int) : List PyVal :=
  PyVal.tuple sock_addr :: PyVal.atom (.int port)
    :: (sock_addr.drop 2).map PyVal.atom

/-- Modelled from the spec: the advertised address the `myport` handler
is meant to store — the connection's actual remote host together with
the reported port (the components after the port are kept, as for an
IPv6 4-tuple). -/
def specMyportAddr (sock_addr : List PyAtom) (port : Int) : List PyVal :=
  (sock_addr.take 1).map PyVal.atom ++ PyVal.atom (.int port)
    :: (sock_addr.drop 2).map PyVal.atom

/-- The dispatch decision of the reader thread for one received
message: a `myport` message only updates `peer_addr`; every other
message is handed to `Protocol.received`.  Returns the updated
connection and the message forwarded to the protocol, if any. -/
def readerDispatch (sock_addr : List PyAtom) (c : PeerConnection)
    (msg_type : List Nat) (msg_param : Int) :
    PeerConnection × Option (List Nat × Int) :=
  if msg_type = myportType then
    ({ c with peer_addr := some (myportUpdate sock_addr msg_param) }, none)
  else (c, some (msg_type, msg_param))

/-- `IncomingHandler.handle`: an inbound connection is dropped only when
the peer list is strictly longer than `MAX_PEERS`; otherwise the new
connection is appended. -/
def handleIncoming (peers : List PeerConnection) (conn : PeerConnection) :
    List PeerConnection :=
  if peers.length > MAX_PEERS then peers else peers ++ [conn]

/-- `Protocol.received_peer`: ignore the report when the peer list has
reached `MAX_PEERS` or the address is already known; otherwise open a
new outbound connection (a fresh `PeerConnection`, whose self-reported
address starts as `None`). -/
def receivedPeer (peers : List PeerConnection) (peer_addr : List PyVal) :
    List PeerConnection :=
  if MAX_PEERS ≤ peers.length then peers
  else if peers.any fun p => decide (p.peer_addr = some peer_addr) then peers
  else peers ++ [⟨none, false, []⟩]

/-! ### Message framing -/

/-- ASCII decimal rendering of a natural number, as `str(len(data))`
produces (no leading zeros; `"0"` for 0). -/
def asciiDecimal (n : Nat) : List Nat :=
  (Nat.toDigits 10 n).map Char.toNat

/-- The writer thread's frame for a serialized payload: the ASCII
decimal length, a newline (10), then the payload bytes. -/
def writerFrame (data : List Nat) : List Nat :=
  asciiDecimal data.length ++ [10] ++ data

/-- Python 3 evaluation of the reader's loop condition `buf[-1] != '\n'`:
`buf[-1]` is an `int` and `'\n'` a one-character `str`, and `!=`
between values of these types is always `True`, whatever the byte
is. -/
def lastByteNeqNewlineStr (_ : Nat) : Bool := true

/-- The reader thread's length-prefix loop: while the buffer is empty
or its last byte fails the (always failing) newline test, receive one
byte; an empty receive — the end of the stream — makes the thread
return without a message (`none`).  On normal exit the loop would
return the buffer and the rest of the stream. -/
def readHeaderLoop (buf : List Nat) : List Nat → Option (List Nat × List Nat)
  | [] =>
    if buf = [] ∨ lastByteNeqNewlineStr (buf.getLastD 0) then none
    else some (buf, [])
  | b :: rest =>
    if buf = [] ∨ lastByteNeqNewlineStr (buf.getLastD 0) then
      readHeaderLoop (buf ++ [b]) rest
    else some (buf, b :: rest)

/-- The reader thread's frame parse, up to obtaining the length header:
every later step (payload read, JSON decode, key lookup) runs only if
the header loop produced a header. -/
def readerParseHeader (stream : List Nat) : Option (List Nat × List Nat) :=
  readHeaderLoop [] stream

/-! ### The spec-side one-shot header hash (for the refinement claim) -/

/-- Modelled from the spec: `compute_header_hash(block)` as one digest
over `prev_block_hash ∥ merkle_root_hash ∥ encode(time) ∥
encode(difficulty) ∥ encode(nonce)`, with no partial/finish split. -/
def specComputeHeaderHash (env : Env) (b : Block) : List Nat :=
  env.H (b.prev_block_hash ++ b.merkle_root_hash ++ timeFormat b.time
    ++ int_to_bytes b.difficulty ++ int_to_bytes b.nonce)

/-! ### Concrete instantiations used to evaluate the model -/

/-- A concrete environment: the digest is the absorbed byte string
itself, the merkle root of any transaction list is empty, proof of work
always accepts, and the genesis constants are small. -/
def envI : Env :=
  { H := fun l => l, merkleRoot := fun _ => [], powVerify := fun _ => true,
    genesisPrev := [78, 111], genesisDifficulty := 1 }

/-- A concrete local time shortly after the genesis timestamp. -/
def nowI : DateTime := ⟨2017, 3, 3, 12, 0, 0, 0⟩

/-- A concrete chain view whose head is the genesis block, with no
known block hashes recorded, unit difficulty, block reward 3, an
always-accepting ledger and zero fees. -/
def chainI : Chain :=
  { head := GENESIS_BLOCK envI, nextDifficulty := 1, nextReward := 3,
    blockIndices := [], txVerify := fun _ _ => true, txFee := fun _ => 0 }

/-- A concrete non-genesis block directly on top of `chainI`'s head. -/
def blockI : Block :=
  Block.init envI (GENESIS_BLOCK envI).hash ⟨2017, 3, 3, 11, 0, 0, 0⟩ 7 1
    none 1 [] []

/-- Concrete transactions: two coinbase transactions paying 3 and 4,
and one ordinary transaction. -/
def txCoin3 : Tx := ⟨[], [⟨3, [9]⟩]⟩

def txCoin4 : Tx := ⟨[], [⟨4, [9]⟩]⟩

def txPlain : Tx := ⟨[5], [⟨1, [9]⟩]⟩

/-- A block body holding a given transaction list (only
`transactions` matters to `verify_transactions`). -/
def blockWithTxs (txs : List Tx) : Block :=
  Block.init envI [1] ⟨2017, 3, 3, 11, 0, 0, 0⟩ 0 1 none 1 txs []

/-- A concrete idle peer connection. -/
def connI : PeerConnection := ⟨none, false, []⟩

/-- A concrete connected peer connection with an empty queue. -/
def connC : PeerConnection := ⟨none, true, []⟩

/-- A peer table already holding `MAX_PEERS` connections. -/
def peersFull : List PeerConnection := List.replicate MAX_PEERS connI

/-- A concrete remote socket address `("10.0.0.1", 4444)`. -/
def sockAddrI : List PyAtom :=
  [PyAtom.str [49, 48, 46, 48, 46, 48, 46, 49], PyAtom.int 4444]

/-! ## Lemmas and claim theorems -/

/-- The reader's length-prefix loop never terminates normally: the
Python 3 comparison `buf[-1] != '\n'` is between an `int` and a `str`
and is therefore always true, so the loop consumes the whole stream and
the thread returns without a message. -/
theorem readHeaderLoop_eq_none (stream : List Nat) :
    ∀ buf, readHeaderLoop buf stream = none := by
  induction stream with
  | nil => intro buf; simp [readHeaderLoop, lastByteNeqNewlineStr]
  | cons b rest ih =>
    intro buf
    simp [readHeaderLoop, lastByteNeqNewlineStr, ih]

/-- C2: the framing round trip fails on the code.  For every serialized
payload, parsing the writer's frame with the reader's frame-parsing
logic produces no message at all: the length-prefix loop never
recognises the newline terminator (`buf[-1] != '\n'` compares an `int`
with a `str` in Python 3), so the reader consumes the entire stream and
gives up — the original message is never recovered (and even a
terminating parse would look up the key `msg_params`, which the writer
never emits, it writes `msg_param`). -/
theorem framing_roundtrip_lost (data : List Nat) :
    readerParseHeader (writerFrame data) = none :=
  readHeaderLoop_eq_none (writerFrame data) []

/-- C10: `send_msg` on a connection whose `is_connected` flag is down
returns without queueing: the connection state, its outbound queue
included, is unchanged. -/
theorem send_msg_disconnected (c : PeerConnection) (t : List Nat) (p : PyVal)
    (h : c.is_connected = false) : c.send_msg t p = c := by
  simp [PeerConnection.send_msg, h]

/-- Witness for C10 at a concrete disconnected connection. -/
theorem send_msg_disconnected_witness :
    connI.is_connected = false ∧
    connI.send_msg myportType (PyVal.atom (.int 3)) = connI :=
  ⟨rfl, send_msg_disconnected connI myportType (PyVal.atom (.int 3)) rfl⟩

/-- C9: evaluation of the `myport` handler at a concrete failing input.
On a connection to remote address `("10.0.0.1", 4444)`, a `myport`
message reporting port 8000 stores `(("10.0.0.1", 4444), 8000)` — the
first component is the whole socket-address tuple, not the remote host,
because the code builds `(self._sock_addr,) + (int(msg_param),) + ...`
— which differs from the advertised address `("10.0.0.1", 8000)` the
specification describes; the message is not forwarded to the protocol
handlers. -/
theorem myport_nested_tuple :
    readerDispatch sockAddrI connC myportType 8000 =
      ({ connC with peer_addr := some (myportUpdate sockAddrI 8000) }, none) ∧
    myportUpdate sockAddrI 8000 =
      [PyVal.tuple sockAddrI, PyVal.atom (.int 8000)] ∧
    specMyportAddr sockAddrI 8000 =
      [PyVal.atom (.str [49, 48, 46, 48, 46, 48, 46, 49]),
       PyVal.atom (.int 8000)] ∧
    myportUpdate sockAddrI 8000 ≠ specMyportAddr sockAddrI 8000 := by
  refine ⟨rfl, rfl, rfl, ?_⟩
  decide

/-- C8 (counterexample): with the peer table exactly at `MAX_PEERS`,
an inbound connection is still appended — the inbound cap check uses a
strict comparison — so the table reaches `MAX_PEERS + 1`, contradicting
the claim that an inbound connection is dropped once the cap is
reached. -/
theorem peer_cap_counterexample :
    peersFull.length = MAX_PEERS ∧
    handleIncoming peersFull connI = peersFull ++ [connI] ∧
    (handleIncoming peersFull connI).length = MAX_PEERS + 1 := by
  refine ⟨by decide, ?_, by decide⟩
  decide

/-- C8 (amended): the inbound path drops a connection only once the
table is strictly longer than `MAX_PEERS`, so the table can grow to
`MAX_PEERS + 1` but never beyond it, and the peer-report path opens no
outbound connection once the table has reached `MAX_PEERS` (and also
never pushes the table beyond `MAX_PEERS + 1`). -/
theorem peer_cap_amended :
    (∀ ps c, MAX_PEERS + 1 ≤ ps.length → handleIncoming ps c = ps) ∧
    (∀ ps (c : PeerConnection), ps.length ≤ MAX_PEERS + 1 →
      (handleIncoming ps c).length ≤ MAX_PEERS + 1) ∧
    (∀ ps a, MAX_PEERS ≤ ps.length → receivedPeer ps a = ps) ∧
    (∀ ps (a : List PyVal), ps.length ≤ MAX_PEERS + 1 →
      (receivedPeer ps a).length ≤ MAX_PEERS + 1) := by
  refine ⟨?_, ?_, ?_, ?_⟩
  · intro ps c h
    simp [handleIncoming]
    omega
  · intro ps c h
    by_cases hl : ps.length > MAX_PEERS
    · simp [handleIncoming, hl]; omega
    · simp [handleIncoming, hl]
      omega
  · intro ps a h
    simp [receivedPeer, h]
  · intro ps a h
    by_cases hl : MAX_PEERS ≤ ps.length
    · simp [receivedPeer, hl]; omega
    · by_cases hk : ps.any fun p => decide (p.peer_addr = some a)
      · simp [receivedPeer, hl, hk]; omega
      · simp [receivedPeer, hl, hk]
        omega

/-- Witness for C8's amended theorem at concrete tables. -/
theorem peer_cap_amended_witness :
    MAX_PEERS + 1 ≤ (peersFull ++ [connI]).length ∧
    handleIncoming (peersFull ++ [connI]) connI = peersFull ++ [connI] ∧
    MAX_PEERS ≤ peersFull.length ∧
    receivedPeer peersFull [PyVal.atom (.int 1)] = peersFull ∧
    peersFull.length ≤ MAX_PEERS + 1 ∧
    (handleIncoming peersFull connI).length ≤ MAX_PEERS + 1 ∧
    (receivedPeer peersFull [PyVal.atom (.int 1)]).length ≤ MAX_PEERS + 1 :=
  ⟨by decide,
   peer_cap_amended.1 (peersFull ++ [connI]) connI (by decide),
   by decide,
   peer_cap_amended.2.2.1 peersFull [PyVal.atom (.int 1)] (by decide),
   by decide,
   peer_cap_amended.2.1 peersFull connI (by decide),
   peer_cap_amended.2.2.2 peersFull [PyVal.atom (.int 1)] (by decide)⟩

/-- C4: `verify_prev_block` accepts exactly when the previous-block
pointer is the current head's hash, the difficulty is the chain's
next-block difficulty, and the height is the head's height plus this
block's difficulty; it returns false whenever any of the three
fails. -/
theorem verify_prev_block_iff (chain : Chain) (b : Block) :
    b.verify_prev_block chain = true ↔
      (chain.head.hash = b.prev_block_hash ∧
       b.difficulty = chain.nextDifficulty ∧
       chain.head.height + b.difficulty = b.height) := by
  unfold Block.verify_prev_block
  by_cases h1 : chain.head.hash = b.prev_block_hash <;>
    by_cases h2 : b.difficulty = chain.nextDifficulty <;>
      by_cases h3 : chain.head.height + b.difficulty = b.height <;>
        simp [h1, h2, h3]

/-- C7: the partial/finish hash split agrees with the stored hash: for
every block built by the constructor, finishing the partial hash (which
absorbs everything but the nonce) with the nonce gives exactly the
`hash` field, and both equal the spec's one-shot header hash. -/
theorem partial_finish_hash_eq (env : Env) (prev : List Nat) (time : DateTime)
    (nonce height : Int) (rt : Option DateTime) (diff : Int) (txs : List Tx)
    (mroot : List Nat) :
    (Block.init env prev time nonce height rt diff txs mroot).finish_hash env
        (Block.init env prev time nonce height rt diff txs mroot).get_partial_hash =
      (Block.init env prev time nonce height rt diff txs mroot).hash ∧
    specComputeHeaderHash env (Block.init env prev time nonce height rt diff txs mroot) =
      (Block.init env prev time nonce height rt diff txs mroot).hash := by
  constructor
  · rfl
  · simp [Block.init, specComputeHeaderHash, Block.get_hash, Block.finish_hash,
      Block.get_partial_hash, List.append_assoc]

/-- C1 (amended): under the asserted precondition that the block's hash
is not yet known to the chain, `verify` rejects every height-0 block —
including one whose hash is the genesis hash — and accepts a block of
non-zero height exactly when the five checks (difficulty, merkle,
prev-block, transactions, time) all pass. -/
theorem verify_characterization (env : Env) (chain : Chain) (now : DateTime)
    (b : Block) (h : b.hash ∉ chain.blockIndices) :
    (b.height = 0 → b.verify env chain now = some false) ∧
    (b.height ≠ 0 → (b.verify env chain now = some true ↔
      (b.verify_difficulty env = true ∧ b.verify_merkle env = true ∧
       b.verify_prev_block chain = true ∧ b.verify_transactions chain = true ∧
       b.verify_time chain now = true))) := by
  constructor
  · intro h0
    simp [Block.verify, h, h0]
  · intro h0
    simp [Block.verify, h, h0, Bool.and_eq_true, and_assoc]

/-- C1 (counterexample): a block of height 0 whose hash is exactly the
genesis hash, evaluated in a concrete environment against a chain that
does not yet know the hash, is rejected by `verify` — the height-0
branch rejects unconditionally, so no height-0 block is ever "valid"
for `verify`. -/
theorem genesis_block_rejected :
    (GENESIS_BLOCK envI).height = 0 ∧
    (GENESIS_BLOCK envI).hash = GENESIS_BLOCK_HASH envI ∧
    (GENESIS_BLOCK envI).hash ∉ chainI.blockIndices ∧
    Block.verify envI chainI nowI (GENESIS_BLOCK envI) = some false := by
  refine ⟨rfl, rfl, by decide, ?_⟩
  decide

/-- Witness for C1's amended theorem at a concrete non-genesis block. -/
theorem verify_characterization_witness :
    blockI.hash ∉ chainI.blockIndices ∧
    ((blockI.height = 0 → Block.verify envI chainI nowI blockI = some false) ∧
     (blockI.height ≠ 0 → (Block.verify envI chainI nowI blockI = some true ↔
       (blockI.verify_difficulty envI = true ∧ blockI.verify_merkle envI = true ∧
        blockI.verify_prev_block chainI = true ∧
        blockI.verify_transactions chainI = true ∧
        blockI.verify_time chainI nowI = true)))) :=
  ⟨by decide, verify_characterization envI chainI nowI blockI (by decide)⟩

/-- Step equation of `txLoop`: a second coinbase transaction fails the
loop at once. -/
theorem txLoop_cons_dup (chain : Chain) (tset : Finset Tx) (u : Tx)
    (rest : List Tx) (m : Tx) (hc : u.inputs = []) :
    txLoop chain tset (u :: rest) (some m) = none := by
  simp [txLoop, hc]

/-- Step equation of `txLoop`: the first coinbase transaction is
recorded, then checked against the ledger. -/
theorem txLoop_cons_coinbase (chain : Chain) (tset : Finset Tx) (u : Tx)
    (rest : List Tx) (hc : u.inputs = []) :
    txLoop chain tset (u :: rest) none =
      if chain.txVerify u (tset.erase u) then txLoop chain tset rest (some u)
      else none := by
  simp [txLoop, hc]

/-- Step equation of `txLoop`: an ordinary transaction is checked
against the ledger and the accumulator is kept. -/
theorem txLoop_cons_plain (chain : Chain) (tset : Finset Tx) (u : Tx)
    (rest : List Tx) (mr : Option Tx) (hc : ¬ u.inputs = []) :
    txLoop chain tset (u :: rest) mr =
      if chain.txVerify u (tset.erase u) then txLoop chain tset rest mr
      else none := by
  cases mr <;> simp [txLoop, hc]

/-- Once a coinbase transaction has been recorded, the loop fails given
any further coinbase transaction in the list. -/
theorem txLoop_some_coinbase (chain : Chain) (tset : Finset Tx) :
    ∀ (ts : List Tx) (m : Tx), (∃ t ∈ ts, t.inputs = []) →
      txLoop chain tset ts (some m) = none := by
  intro ts
  induction ts with
  | nil => intro m h; simp at h
  | cons u rest ih =>
    intro m h
    by_cases hc : u.inputs = []
    · exact txLoop_cons_dup chain tset u rest m hc
    · rcases h with ⟨w, hw, hwin⟩
      have hwr : w ∈ rest := by
        cases hw with
        | head => exact absurd hwin hc
        | tail _ hmem => exact hmem
      rw [txLoop_cons_plain chain tset u rest (some m) hc]
      by_cases hv : chain.txVerify u (tset.erase u) = true
      · rw [if_pos hv]; exact ih m ⟨w, hwr, hwin⟩
      · rw [if_neg hv]

/-- A list holding two or more coinbase transactions makes the loop
fail. -/
theorem txLoop_two_coinbase (chain : Chain) (tset : Finset Tx) :
    ∀ ts : List Tx, 2 ≤ ts.countP (fun t => decide (t.inputs = [])) →
      txLoop chain tset ts none = none := by
  intro ts
  induction ts with
  | nil => intro h; simp at h
  | cons u rest ih =>
    intro h
    rw [List.countP_cons] at h
    by_cases hc : u.inputs = []
    · have hex : ∃ w ∈ rest, w.inputs = [] := by
        simpa [hc] using h
      rw [txLoop_cons_coinbase chain tset u rest hc]
      by_cases hv : chain.txVerify u (tset.erase u) = true
      · rw [if_pos hv]; exact txLoop_some_coinbase chain tset rest u hex
      · rw [if_neg hv]
    · have h2 : 2 ≤ rest.countP (fun t => decide (t.inputs = [])) := by
        simp [hc] at h; omega
      rw [txLoop_cons_plain chain tset u rest none hc]
      by_cases hv : chain.txVerify u (tset.erase u) = true
      · rw [if_pos hv]; exact ih h2
      · rw [if_neg hv]

/-- If the loop completes, every transaction of the list passed the
ledger check against the other transactions of the block. -/
theorem txLoop_verified (chain : Chain) (tset : Finset Tx) :
    ∀ (ts : List Tx) (mr r : Option Tx), txLoop chain tset ts mr = some r →
      ∀ t ∈ ts, chain.txVerify t (tset.erase t) = true := by
  intro ts
  induction ts with
  | nil => intro mr r _ t ht; simp at ht
  | cons u rest ih =>
    intro mr r h t ht
    have step : txLoop chain tset (u :: rest) mr =
        (if chain.txVerify u (tset.erase u) then
          txLoop chain tset rest (if u.inputs = [] then some u else mr)
         else none) ∨ txLoop chain tset (u :: rest) mr = none := by
      by_cases hc : u.inputs = []
      · cases mr with
        | some m => exact Or.inr (txLoop_cons_dup chain tset u rest m hc)
        | none =>
          refine Or.inl ?_
          rw [txLoop_cons_coinbase chain tset u rest hc, if_pos hc]
      · refine Or.inl ?_
        rw [txLoop_cons_plain chain tset u rest mr hc, if_neg hc]
    rcases step with hs | hs
    · rw [hs] at h
      by_cases hv : chain.txVerify u (tset.erase u) = true
      · rw [if_pos hv] at h
        cases ht with
        | head => exact hv
        | tail _ hmem => exact ih _ r h t hmem
      · rw [if_neg hv] at h; simp at h
    · rw [hs] at h; simp at h

/-- If the loop completes, either the list holds no coinbase
transaction and the accumulator is returned unchanged, or the
accumulator was empty, the list holds exactly one coinbase transaction,
and that transaction is returned. -/
theorem txLoop_result (chain : Chain) (tset : Finset Tx) :
    ∀ (ts : List Tx) (mr r : Option Tx), txLoop chain tset ts mr = some r →
      (ts.filter (fun t => decide (t.inputs = [])) = [] ∧ r = mr) ∨
      (mr = none ∧ ∃ c, ts.filter (fun t => decide (t.inputs = [])) = [c] ∧
        r = some c) := by
  intro ts
  induction ts with
  | nil =>
    intro mr r h
    simp [txLoop] at h
    exact Or.inl ⟨by simp, h.symm⟩
  | cons u rest ih =>
    intro mr r h
    by_cases hc : u.inputs = []
    · cases mr with
      | some m => rw [txLoop_cons_dup chain tset u rest m hc] at h; simp at h
      | none =>
        rw [txLoop_cons_coinbase chain tset u rest hc] at h
        by_cases hv : chain.txVerify u (tset.erase u) = true
        · rw [if_pos hv] at h
          rcases ih (some u) r h with ⟨hf, hr⟩ | ⟨hmr, _⟩
          · exact Or.inr ⟨rfl, u, by simp [hc, hf], hr⟩
          · simp at hmr
        · rw [if_neg hv] at h; simp at h
    · rw [txLoop_cons_plain chain tset u rest mr hc] at h
      by_cases hv : chain.txVerify u (tset.erase u) = true
      · rw [if_pos hv] at h
        rcases ih mr r h with ⟨hf, hr⟩ | ⟨hmr, c, hfc, hr⟩
        · exact Or.inl ⟨by simp [hc, hf], hr⟩
        · exact Or.inr ⟨hmr, c, by simp [hc, hfc], hr⟩
      · rw [if_neg hv] at h; simp at h

/-- With every ledger check passing and no coinbase transaction in the
list, the loop completes with the accumulator unchanged. -/
theorem txLoop_no_coinbase (chain : Chain) (tset : Finset Tx) :
    ∀ (ts : List Tx) (mr : Option Tx),
      (∀ t ∈ ts, chain.txVerify t (tset.erase t) = true) →
      ts.filter (fun t => decide (t.inputs = [])) = [] →
      txLoop chain tset ts mr = some mr := by
  intro ts
  induction ts with
  | nil => intro mr _ _; simp [txLoop]
  | cons u rest ih =>
    intro mr hv hf
    rw [List.filter_cons] at hf
    by_cases hc : u.inputs = []
    · simp [hc] at hf
    · simp only [hc, decide_eq_true_eq, if_neg hc] at hf
      rw [txLoop_cons_plain chain tset u rest mr hc,
        if_pos (hv u (by simp))]
      exact ih mr (fun t ht => hv t (by simp [ht])) hf

/-- With every ledger check passing and exactly one coinbase
transaction in the list, the loop started on an empty accumulator
completes and returns that coinbase transaction. -/
theorem txLoop_one_coinbase (chain : Chain) (tset : Finset Tx) :
    ∀ (ts : List Tx) (c : Tx),
      (∀ t ∈ ts, chain.txVerify t (tset.erase t) = true) →
      ts.filter (fun t => decide (t.inputs = [])) = [c] →
      txLoop chain tset ts none = some (some c) := by
  intro ts
  induction ts with
  | nil => intro c _ hf; simp at hf
  | cons u rest ih =>
    intro c hv hf
    rw [List.filter_cons] at hf
    by_cases hc : u.inputs = []
    · rw [if_pos (by simp [hc])] at hf
      have huc : u = c := (List.cons_eq_cons.mp hf).1
      have hrest : rest.filter (fun t => decide (t.inputs = [])) = [] :=
        (List.cons_eq_cons.mp hf).2
      rw [txLoop_cons_coinbase chain tset u rest hc,
        if_pos (hv u (by simp))]
      rw [txLoop_no_coinbase chain tset rest (some u)
        (fun t ht => hv t (by simp [ht])) hrest]
      rw [huc]
    · rw [if_neg (by simp [hc])] at hf
      rw [txLoop_cons_plain chain tset u rest none hc,
        if_pos (hv u (by simp))]
      exact ih c (fun t ht => hv t (by simp [ht])) hf

/-- C3: `verify_transactions` rejects a block holding two or more
coinbase transactions; rejects a block whose single coinbase
transaction pays out strictly more than the summed fees plus the
next-block reward; accepts the coinbase check when the payout equals
fees plus reward exactly (given every ledger check passes); and its
success implies every transaction was verified against the chain view
together with the set of the other transactions of the block. -/
theorem verify_transactions_spec :
    (∀ (chain : Chain) (b : Block),
      2 ≤ b.transactions.countP (fun t => decide (t.inputs = [])) →
      b.verify_transactions chain = false) ∧
    (∀ (chain : Chain) (b : Block) (c : Tx),
      b.transactions.filter (fun t => decide (t.inputs = [])) = [c] →
      (b.transactions.map chain.txFee).sum + chain.nextReward <
        (c.targets.map Target.amount).sum →
      b.verify_transactions chain = false) ∧
    (∀ (chain : Chain) (b : Block) (c : Tx),
      (∀ t ∈ b.transactions,
        chain.txVerify t (b.transactions.toFinset.erase t) = true) →
      b.transactions.filter (fun t => decide (t.inputs = [])) = [c] →
      (c.targets.map Target.amount).sum =
        (b.transactions.map chain.txFee).sum + chain.nextReward →
      b.verify_transactions chain = true) ∧
    (∀ (chain : Chain) (b : Block),
      b.verify_transactions chain = true →
      ∀ t ∈ b.transactions,
        chain.txVerify t (b.transactions.toFinset.erase t) = true) := by
  refine ⟨?_, ?_, ?_, ?_⟩
  · intro chain b h
    simp only [Block.verify_transactions]
    rw [txLoop_two_coinbase chain b.transactions.toFinset b.transactions h]
  · intro chain b c hfc hlt
    simp only [Block.verify_transactions]
    cases hr : txLoop chain b.transactions.toFinset b.transactions none with
    | none => rfl
    | some r =>
      rcases txLoop_result chain _ _ _ _ hr with ⟨hf, _⟩ | ⟨_, c', hfc', hr'⟩
      · rw [hfc] at hf; exact absurd hf (by simp)
      · have hcc : c' = c := by
          rw [hfc'] at hfc; exact (List.cons_eq_cons.mp hfc).1
        rw [hr', hcc]
        simp only [gt_iff_lt]
        rw [if_pos hlt]
  · intro chain b c hv hfc hsum
    simp only [Block.verify_transactions]
    rw [txLoop_one_coinbase chain b.transactions.toFinset b.transactions c hv hfc]
    simp only [gt_iff_lt]
    rw [if_neg (by rw [hsum]; exact lt_irrefl _)]
  · intro chain b h t ht
    revert h
    simp only [Block.verify_transactions]
    cases hr : txLoop chain b.transactions.toFinset b.transactions none with
    | none => intro h; exact absurd h (by simp)
    | some r => intro _; exact txLoop_verified chain _ _ _ _ hr t ht

/-- Witness for C3 at concrete blocks over `chainI` (fees 0, reward 3):
two coinbase transactions are rejected, a single coinbase paying 4 is
rejected, a single coinbase paying exactly 3 is accepted, and the
accepted block's transaction passed the ledger check. -/
theorem verify_transactions_spec_witness :
    (blockWithTxs [txCoin3, txCoin4]).verify_transactions chainI = false ∧
    (blockWithTxs [txCoin4]).verify_transactions chainI = false ∧
    (blockWithTxs [txCoin3]).verify_transactions chainI = true ∧
    chainI.txVerify txCoin3
      ((blockWithTxs [txCoin3]).transactions.toFinset.erase txCoin3) = true :=
  ⟨verify_transactions_spec.1 chainI (blockWithTxs [txCoin3, txCoin4])
      (by decide),
   verify_transactions_spec.2.1 chainI (blockWithTxs [txCoin4]) txCoin4
      (by decide) (by decide),
   verify_transactions_spec.2.2.1 chainI (blockWithTxs [txCoin3]) txCoin3
      (by decide) (by decide) (by decide),
   verify_transactions_spec.2.2.2 chainI (blockWithTxs [txCoin3])
      (by decide) txCoin3 (by decide)⟩

/-- `padDigits` emits exactly `w` bytes. -/
theorem padDigits_length : ∀ w n, (padDigits w n).length = w := by
  intro w
  induction w with
  | zero => intro n; rfl
  | succ w ih => intro n; simp [padDigits, ih]

/-- Every byte `padDigits` emits is an ASCII digit. -/
theorem padDigits_all_digits : ∀ w n, ∀ c ∈ padDigits w n, 48 ≤ c ∧ c ≤ 57 := by
  intro w
  induction w with
  | zero => intro n c hc; simp [padDigits] at hc
  | succ w ih =>
    intro n c hc
    rw [padDigits, List.mem_append] at hc
    rcases hc with hc | hc
    · exact ih (n / 10) c hc
    · have : c = 48 + n % 10 := by simpa using hc
      have : n % 10 ≤ 9 := by omega
      omega

/-- Refolding the digits of `padDigits` recovers the value. -/
theorem padDigits_foldl : ∀ w n acc, n < 10 ^ w →
    (padDigits w n).foldl (fun a c => a * 10 + (c - 48)) acc =
      acc * 10 ^ w + n := by
  intro w
  induction w with
  | zero =>
    intro n acc h
    have : n = 0 := by simpa using h
    simp [padDigits, this]
  | succ w ih =>
    intro n acc h
    have hdiv : n / 10 < 10 ^ w := by
      rw [Nat.div_lt_iff_lt_mul (by norm_num)]
      calc n < 10 ^ (w + 1) := h
        _ = 10 ^ w * 10 := pow_succ 10 w
    rw [padDigits, List.foldl_append, ih (n / 10) acc hdiv]
    simp only [List.foldl_cons, List.foldl_nil]
    have hp : (10:Nat) ^ (w + 1) = 10 ^ w * 10 := pow_succ 10 w
    rw [hp, ← Nat.mul_assoc]
    have hmod : 48 + n % 10 - 48 = n % 10 := by omega
    rw [hmod]
    have := Nat.div_add_mod n 10
    omega

/-- `parseDigits` consumes a run of digit bytes and accumulates their
value. -/
theorem parseDigits_run : ∀ (ds : List Nat), (∀ c ∈ ds, 48 ≤ c ∧ c ≤ 57) →
    ∀ (acc : Nat) (rest : List Nat),
      parseDigits acc ds.length (ds ++ rest) =
        some (ds.foldl (fun a c => a * 10 + (c - 48)) acc, rest) := by
  intro ds
  induction ds with
  | nil => intro _ acc rest; simp [parseDigits]
  | cons c ds ih =>
    intro h acc rest
    have hc := h c (by simp)
    have hcd : charDigit c = some (c - 48) := by
      simp [charDigit, hc.1, hc.2]
    simp only [List.length_cons, List.cons_append, parseDigits, hcd,
      List.foldl_cons]
    exact ih (fun x hx => h x (by simp [hx])) (acc * 10 + (c - 48)) rest

/-- `parseDigits` inverts `padDigits`. -/
theorem parseDigits_pad (w n : Nat) (rest : List Nat) (h : n < 10 ^ w) :
    parseDigits 0 w (padDigits w n ++ rest) = some (n, rest) := by
  have hlen := padDigits_length w n
  have := parseDigits_run (padDigits w n) (padDigits_all_digits w n) 0 rest
  rw [hlen] at this
  rw [this, padDigits_foldl w n 0 h]
  simp

/-- `parseLits` consumes exactly the expected literal prefix. -/
theorem parseLits_append : ∀ (cs rest : List Nat),
    parseLits cs (cs ++ rest) = some rest := by
  intro cs
  induction cs with
  | nil => intro rest; rfl
  | cons c cs ih => intro rest; simp [parseLits, ih]

/-- One field step of `parseFields` on well-formed input. -/
theorem parseFields_step (w : Nat) (sep : List Nat) (fs : List (Nat × List Nat))
    (n : Nat) (s : List Nat) (hn : n < 10 ^ w) :
    parseFields ((w, sep) :: fs) (padDigits w n ++ (sep ++ s)) =
      (parseFields fs s).bind fun q => some (n :: q.1, q.2) := by
  simp only [parseFields]
  rw [parseDigits_pad w n (sep ++ s) hn]
  simp only [Option.some_bind]
  rw [parseLits_append sep s]
  simp only [Option.some_bind]

/-- `timeParse` inverts `timeFormat` on datetimes whose components are
in range. -/
theorem timeParse_timeFormat (t : DateTime) (h : t.Valid) :
    timeParse (timeFormat t) = some t := by
  obtain ⟨h1, h2, h3, h4, h5, h6, h7, h8, h9, h10⟩ := h
  have e1 : timeFormat t =
      padDigits 4 t.year ++ ([45] ++ (padDigits 2 t.month ++ ([45] ++
        (padDigits 2 t.day ++ ([84] ++ (padDigits 2 t.hour ++ ([58] ++
        (padDigits 2 t.minute ++ ([58] ++ (padDigits 2 t.second ++ ([46] ++
        (padDigits 6 t.usec ++ ([32, 85, 84, 67] ++ []))))))))))))) := by
    simp [timeFormat]
  rw [timeParse, timeFields, e1]
  rw [parseFields_step 4 [45] _ t.year _ (by omega)]
  rw [parseFields_step 2 [45] _ t.month _ (by omega)]
  rw [parseFields_step 2 [84] _ t.day _ (by omega)]
  rw [parseFields_step 2 [58] _ t.hour _ (by omega)]
  rw [parseFields_step 2 [58] _ t.minute _ (by omega)]
  rw [parseFields_step 2 [46] _ t.second _ (by omega)]
  rw [parseFields_step 6 [32, 85, 84, 67] _ t.usec _ (by omega)]
  simp only [parseFields, Option.some_bind]
  rw [if_pos]
  · exact ⟨by omega, h3, h4, h5, h6, h7, h8, by omega, h10⟩

/-- `hexVal` inverts `hexChar` on values below 16. -/
theorem hexVal_hexChar (b : Nat) (h : b < 16) : hexVal (hexChar b) = some b := by
  by_cases hb : b < 10
  · rw [hexChar, if_pos hb, hexVal, if_pos (by omega)]
    congr 1
    omega
  · rw [hexChar, if_neg hb, hexVal, if_neg (by omega), if_pos (by omega)]
    congr 1
    omega

/-- `unhexlify` inverts `hexlify` on byte strings. -/
theorem unhexlify_hexlify : ∀ l : List Nat, (∀ b ∈ l, b < 256) →
    unhexlify (hexlify l) = some l := by
  intro l
  induction l with
  | nil => intro _; rfl
  | cons b r ih =>
    intro h
    have hb := h b (by simp)
    have h1 : hexVal (hexChar (b / 16)) = some (b / 16) :=
      hexVal_hexChar _ (by omega)
    have h2 : hexVal (hexChar (b % 16)) = some (b % 16) :=
      hexVal_hexChar _ (by omega)
    rw [hexlify, unhexlify]
    simp only [h1, h2, ih (fun x hx => h x (by simp [hx])), Option.some_bind,
      Option.bind_eq_bind]
    have : 16 * (b / 16) + b % 16 = b := by omega
    simp [this]

/-- Decoding the encoded transaction list recovers it, given the
collaborator's round trip. -/
theorem decodeAll_map (txTo : Tx → J) (txFrom : J → Option Tx)
    (hTx : ∀ t, txFrom (txTo t) = some t) :
    ∀ ts : List Tx, decodeAll txFrom (ts.map txTo) = some ts := by
  intro ts
  induction ts with
  | nil => rfl
  | cons t ts ih => simp [decodeAll, hTx t, ih]

/-- C5: the persisted-encoding round trip.  For every well-formed block
(byte fields below 256, a valid timestamp, and the `hash` field as set
by the constructor), decoding `to_json_compatible` through
`from_json_compatible` succeeds and returns the block itself with only
`received_time` replaced by the decoding time: every header field —
`prev_block_hash`, `merkle_root_hash`, `time`, `nonce`, `height`,
`difficulty`, `transactions` — is preserved, and the recomputed hash
equals the original block's hash. -/
theorem json_roundtrip (env : Env) {J : Type} (txTo : Tx → J)
    (txFrom : J → Option Tx) (now : DateTime) (b : Block)
    (hTx : ∀ t, txFrom (txTo t) = some t)
    (hPrev : ∀ x ∈ b.prev_block_hash, x < 256)
    (hMroot : ∀ x ∈ b.merkle_root_hash, x < 256)
    (hTime : b.time.Valid)
    (hHash : b.hash = b.get_hash env) :
    Block.from_json_compatible env txFrom now (Block.to_json_compatible txTo b)
      = some { b with received_time := some now } := by
  rw [Block.from_json_compatible, Block.to_json_compatible]
  simp only
  rw [unhexlify_hexlify b.prev_block_hash hPrev,
    timeParse_timeFormat b.time hTime,
    decodeAll_map txTo txFrom hTx b.transactions,
    unhexlify_hexlify b.merkle_root_hash hMroot]
  simp only [Option.some_bind]
  rw [Block.init]
  simp only [Option.some.injEq]
  have : Block.get_hash env
      ⟨b.prev_block_hash, b.merkle_root_hash, b.time, b.nonce, b.height,
        some now, b.difficulty, b.transactions, []⟩ = b.get_hash env := rfl
  rw [Block.mk.injEq]
  exact ⟨rfl, rfl, rfl, rfl, rfl, rfl, rfl, rfl, by rw [this, ← hHash]⟩

/-- Witness for C5 at a concrete block (identity transaction encoding,
concrete environment). -/
theorem json_roundtrip_witness :
    (blockWithTxs [txPlain]).time.Valid ∧
    (blockWithTxs [txPlain]).hash = (blockWithTxs [txPlain]).get_hash envI ∧
    Block.from_json_compatible envI some nowI
        (Block.to_json_compatible (fun t => t) (blockWithTxs [txPlain])) =
      some { blockWithTxs [txPlain] with received_time := some nowI } :=
  ⟨by decide, rfl,
   json_roundtrip envI (fun t => t) some nowI (blockWithTxs [txPlain])
     (fun _ => rfl) (by decide) (by decide) (by decide) rfl⟩

/-- With sufficient fuel, a number is below `2 ^` its binary length. -/
theorem natBitsAux_lt : ∀ fuel m : Nat, m ≤ fuel → m < 2 ^ natBitsAux fuel m := by
  intro fuel
  induction fuel with
  | zero =>
    intro m h
    have hm : m = 0 := by omega
    subst hm
    simp [natBitsAux]
  | succ f ih =>
    intro m h
    cases m with
    | zero => simp [natBitsAux]
    | succ k =>
      have hh : (k + 1) / 2 ≤ f := by omega
      have hrec := ih ((k + 1) / 2) hh
      simp only [natBitsAux]
      rw [pow_succ]
      generalize hB : 2 ^ natBitsAux f ((k + 1) / 2) = B at hrec ⊢
      omega

/-- A Python int's absolute value is below `2 ^ bit_length`. -/
theorem bitLength_natAbs_lt (v : Int) : v.natAbs < 2 ^ bitLength v :=
  natBitsAux_lt v.natAbs v.natAbs le_rfl

/-- `leBytes` emits exactly `n` bytes. -/
theorem leBytes_length : ∀ n v, (leBytes n v).length = n := by
  intro n
  induction n with
  | zero => intro v; rfl
  | succ n ih => intro v; simp [leBytes, ih]

/-- `leBytes` is injective on values below `2 ^ (8 n)`. -/
theorem leBytes_inj : ∀ (n : Nat) (v w : Nat), v < 2 ^ (8 * n) →
    w < 2 ^ (8 * n) → leBytes n v = leBytes n w → v = w := by
  intro n
  induction n with
  | zero =>
    intro v w hv hw _
    simp at hv hw
    omega
  | succ n ih =>
    intro v w hv hw h
    simp only [leBytes, List.cons.injEq] at h
    obtain ⟨h1, h2⟩ := h
    have hpow : (2:Nat) ^ (8 * (n + 1)) = 2 ^ (8 * n) * 256 := by
      rw [show 8 * (n + 1) = 8 * n + 8 by omega, pow_add]
      norm_num
    rw [hpow] at hv hw
    have hv' : v / 256 < 2 ^ (8 * n) :=
      (Nat.div_lt_iff_lt_mul (by norm_num)).mpr hv
    have hw' : w / 256 < 2 ^ (8 * n) :=
      (Nat.div_lt_iff_lt_mul (by norm_num)).mpr hw
    have := ih (v / 256) (w / 256) hv' hw' h2
    omega

/-- The stored two's-complement value is a byte string value below the
modulus. -/
theorem emod_toNat_lt (v : Int) (l : Nat) :
    (v.emod (2 ^ (8 * l))).toNat < 2 ^ (8 * l) := by
  have hM : (0:Int) < 2 ^ (8 * l) := by positivity
  have h1 : 0 ≤ v.emod (2 ^ (8 * l)) := Int.emod_nonneg v (by omega)
  have h2 : v.emod (2 ^ (8 * l)) < 2 ^ (8 * l) := Int.emod_lt_of_pos v hM
  have hc : ((2 ^ (8 * l) : Nat) : Int) = (2 : Int) ^ (8 * l) := by push_cast; rfl
  omega

/-- Two integers small enough for the modulus and congruent modulo it
are equal. -/
theorem emod_inj (M : Int) (v w : Int) (hv : 2 * (v.natAbs : Int) < M)
    (hw : 2 * (w.natAbs : Int) < M) (h : v.emod M = w.emod M) : v = w := by
  have hM : 0 < M := by omega
  have hd : M ∣ w - v := Int.ModEq.dvd h
  rcases hd with ⟨k, hk⟩
  by_cases hk0 : k = 0
  · subst hk0
    rw [mul_zero] at hk
    omega
  · exfalso
    have h1 : 1 ≤ |k| := Int.one_le_abs hk0
    have h2 : M ≤ M * |k| := le_mul_of_one_le_right (le_of_lt hM) h1
    have h3 : |w - v| = M * |k| := by rw [hk, abs_mul, abs_of_pos hM]
    have h7 : M ≤ |w - v| := by rw [h3]; exact h2
    have h4 : |w - v| ≤ |w| + |v| := abs_sub w v
    have h5 : |w| = (w.natAbs : Int) := Int.abs_eq_natAbs w
    have h6 : |v| = (v.natAbs : Int) := Int.abs_eq_natAbs v
    omega

/-- Prepending one encoded integer to a byte stream is injective in
both the integer and the rest of the stream (for values whose length
prefix fits `pack("<Q", ...)`). -/
theorem int_to_bytes_append_inj (v w : Int) (A B : List Nat)
    (hv : bitLength v + 1 < 2 ^ 64) (hw : bitLength w + 1 < 2 ^ 64)
    (h : int_to_bytes v ++ A = int_to_bytes w ++ B) : v = w ∧ A = B := by
  simp only [int_to_bytes] at h
  rw [List.append_assoc, List.append_assoc] at h
  obtain ⟨h1, h2⟩ := List.append_inj h (by rw [leBytes_length, leBytes_length])
  have hl64 : (2:Nat) ^ 64 = 2 ^ (8 * 8) := by norm_num
  have hl : bitLength v + 1 = bitLength w + 1 :=
    leBytes_inj 8 _ _ (by rw [← hl64]; exact hv) (by rw [← hl64]; exact hw) h1
  obtain ⟨h3, h4⟩ := List.append_inj h2
    (by rw [leBytes_length, leBytes_length, hl])
  refine ⟨?_, h4⟩
  rw [← hl] at h3
  have hm := leBytes_inj (bitLength v + 1) _ _ (emod_toNat_lt v _)
    (emod_toNat_lt w _) h3
  have hMv : v.emod (2 ^ (8 * (bitLength v + 1))) =
      w.emod (2 ^ (8 * (bitLength v + 1))) := by
    have n1 : 0 ≤ v.emod (2 ^ (8 * (bitLength v + 1))) :=
      Int.emod_nonneg v (by positivity)
    have n2 : 0 ≤ w.emod (2 ^ (8 * (bitLength v + 1))) :=
      Int.emod_nonneg w (by positivity)
    omega
  apply emod_inj (2 ^ (8 * (bitLength v + 1))) v w ?_ ?_ hMv
  · have b1 : v.natAbs < 2 ^ bitLength v := bitLength_natAbs_lt v
    have b2 : (2:Nat) ^ (bitLength v + 1) ≤ 2 ^ (8 * (bitLength v + 1)) :=
      Nat.pow_le_pow_right (by norm_num) (by omega)
    have b3 : 2 * v.natAbs < 2 ^ (bitLength v + 1) := by
      rw [pow_succ]; omega
    have b4 : 2 * v.natAbs < 2 ^ (8 * (bitLength v + 1)) :=
      lt_of_lt_of_le b3 b2
    exact_mod_cast b4
  · have hbw : bitLength w = bitLength v := by omega
    have b1 : w.natAbs < 2 ^ bitLength w := bitLength_natAbs_lt w
    have b2 : (2:Nat) ^ (bitLength w + 1) ≤ 2 ^ (8 * (bitLength w + 1)) :=
      Nat.pow_le_pow_right (by norm_num) (by omega)
    have b3 : 2 * w.natAbs < 2 ^ (bitLength w + 1) := by
      rw [pow_succ]; omega
    have b4 : 2 * w.natAbs < 2 ^ (8 * (bitLength w + 1)) :=
      lt_of_lt_of_le b3 b2
    rw [hbw] at b4
    exact_mod_cast b4

/-- Unfolding of the sequence encoding. -/
theorem int_to_bytes_seq_cons (v : Int) (r : List Int) :
    int_to_bytes_seq (v :: r) = int_to_bytes v ++ int_to_bytes_seq r := by
  simp [int_to_bytes_seq]

/-- The concatenated encoding of a sequence of integers is injective
(for values whose length prefix fits `pack("<Q", ...)`). -/
theorem int_to_bytes_seq_inj : ∀ s1 s2 : List Int,
    (∀ v ∈ s1, bitLength v + 1 < 2 ^ 64) →
    (∀ v ∈ s2, bitLength v + 1 < 2 ^ 64) →
    int_to_bytes_seq s1 = int_to_bytes_seq s2 → s1 = s2 := by
  intro s1
  induction s1 with
  | nil =>
    intro s2 _ _ h
    cases s2 with
    | nil => rfl
    | cons w r2 =>
      exfalso
      rw [int_to_bytes_seq_cons] at h
      have hlen := congrArg List.length h
      simp only [int_to_bytes_seq, List.map_nil, List.flatten_nil,
        List.length_nil, List.length_append, int_to_bytes,
        leBytes_length] at hlen
      omega
  | cons v r1 ih =>
    intro s2 h1 h2 h
    cases s2 with
    | nil =>
      exfalso
      rw [int_to_bytes_seq_cons] at h
      have hlen := congrArg List.length h
      simp only [int_to_bytes_seq, List.map_nil, List.flatten_nil,
        List.length_nil, List.length_append, int_to_bytes,
        leBytes_length] at hlen
      omega
    | cons w r2 =>
      rw [int_to_bytes_seq_cons, int_to_bytes_seq_cons] at h
      obtain ⟨hvw, hr⟩ := int_to_bytes_append_inj v w _ _ (h1 v (by simp))
        (h2 w (by simp)) h
      rw [hvw, ih r2 (fun x hx => h1 x (by simp [hx]))
        (fun x hx => h2 x (by simp [hx])) hr]

/-- C6: the length prefix makes the integer encoding unambiguous under
concatenation: the concatenated encodings of `(0xffff, 0x00)` and
`(0xff, 0xff00)` differ, and in general distinct sequences of integers
(whose length prefixes fit the 8-byte `pack`) never encode to the same
byte string. -/
theorem int_encoding_unambiguous :
    int_to_bytes_seq [0xffff, 0] ≠ int_to_bytes_seq [0xff, 0xff00] ∧
    ∀ s1 s2 : List Int, (∀ v ∈ s1, bitLength v + 1 < 2 ^ 64) →
      (∀ v ∈ s2, bitLength v + 1 < 2 ^ 64) →
      int_to_bytes_seq s1 = int_to_bytes_seq s2 → s1 = s2 :=
  ⟨by decide, int_to_bytes_seq_inj⟩

/-- Witness for C6's injectivity direction at a concrete sequence. -/
theorem int_encoding_unambiguous_witness :
    (∀ v ∈ ([0xffff, 0] : List Int), bitLength v + 1 < 2 ^ 64) ∧
    ([0xffff, 0] : List Int) = [0xffff, 0] :=
  ⟨by decide,
   int_encoding_unambiguous.2 [0xffff, 0] [0xffff, 0] (by decide) (by decide)
     rfl⟩
